import Mathlib

/-!
Verification development for the MT5-Live-Data-Chart repository.

Shallow embedding of the three source files:
  - src/live_updater.py   (granularity catalog, completion oracle, reconciler,
    scheduler interval policy, sleep policy)
  - src/AutoTrader/main.py (one-shot historical backfill, save_to_database)
  - src/api_server.py     (the /ohlc read endpoint)

Modelling conventions:
  - Python runtime exceptions (ValueError from int(...)) are modelled with
    Except PyError; an uncaught exception propagates as .error.
  - SQLite tables are modelled as lists of rows in insertion order.  The
    datetime TEXT UNIQUE key column is the strftime image of the integer
    time column at second resolution; that map is injective and monotone on
    epoch seconds, so rows are keyed here directly by their integer time.
  - The sqlite3 dict built from SELECT (later rows overwrite earlier ones)
    is dbLookup, a left fold over the row list.
  - An INSERT that violates the UNIQUE constraint raises sqlite3.Error,
    which the source catches per row and skips without counting; that is
    the dbContains guard in the insert branches.
  - REAL columns (prices) are modelled as rationals: the source only copies
    them, never computes with them.
  - Float literals 0.05, 0.1 and Python's / on these values are modelled in
    rationals; Python's // on integers is Int.fdiv (floor division).
-/

inductive PyError where
  | valueError
  deriving Repr, DecidableEq

instance {ε α : Type} [DecidableEq ε] [DecidableEq α] : DecidableEq (Except ε α) := fun a b =>
  match a, b with
  | .ok x, .ok y => if h : x = y then isTrue (by rw [h]) else isFalse (by simp [h])
  | .error x, .error y => if h : x = y then isTrue (by rw [h]) else isFalse (by simp [h])
  | .ok _, .error _ => isFalse (by simp)
  | .error _, .ok _ => isFalse (by simp)

/-- Value of a digit string, most significant digit first. -/
def digitsToInt (cs : List Char) : Int :=
  cs.foldl (fun a c => a * 10 + ((c.toNat : Int) - 48)) 0

/-- Model of Python's int(str): an optional sign followed by at least one
digit parses; anything else raises ValueError (modelled as none here).
Python also tolerates surrounding whitespace and underscores between
digits, which never occur in this program's inputs. -/
def pyIntChars (cs : List Char) : Option Int :=
  match cs with
  | '-' :: rest =>
      if rest ≠ [] ∧ rest.all Char.isDigit then some (-(digitsToInt rest)) else none
  | '+' :: rest =>
      if rest ≠ [] ∧ rest.all Char.isDigit then some (digitsToInt rest) else none
  | _ =>
      if cs ≠ [] ∧ cs.all Char.isDigit then some (digitsToInt cs) else none

/-- Python str.startswith with a single-character needle. -/
def headIsChar (c : Char) (s : String) : Bool :=
  match s.data with
  | [] => false
  | a :: _ => a = c

/-- live_updater.get_timeframe_seconds (src/live_updater.py lines 175-193).
The elif chain is mirrored in order; note that the branch for "MN1" sits
after the startswith('M') branch, exactly as in the source, so it is dead:
"MN1" takes the M branch and int("N1") raises ValueError. -/
def get_timeframe_seconds (s : String) : Except PyError (Option Int) :=
  if headIsChar 'M' s then
    match pyIntChars (s.data.drop 1) with
    | some n => .ok (some (n * 60))
    | none => .error .valueError
  else if headIsChar 'H' s then
    match pyIntChars (s.data.drop 1) with
    | some n => .ok (some (n * 3600))
    | none => .error .valueError
  else if s.data = ['D', '1'] then .ok (some 86400)
  else if s.data = ['W', '1'] then .ok (some 604800)
  else if s.data = ['M', 'N', '1'] then .ok (some 2592000)
  else .ok none

/-- live_updater.is_candle_complete (lines 195-210): a candle is complete
when current_time >= candle_time + timeframe_seconds; if the timeframe
cannot be determined (None) the oracle defaults to complete.  A ValueError
raised while resolving the timeframe propagates. -/
def is_candle_complete (current_time candle_time : Int) (tf : String) : Except PyError Bool :=
  match get_timeframe_seconds tf with
  | .error e => .error e
  | .ok none => .ok true
  | .ok (some g) => .ok (decide (candle_time + g ≤ current_time))

/-- One raw bar of the rates array returned by mt5.copy_rates_from_pos.
spread / real_volume are optional: none models a missing or NaN field,
which the source replaces with 0 on write. -/
structure Rate where
  time : Int
  open_ : ℚ
  high : ℚ
  low : ℚ
  close : ℚ
  tick_volume : Int
  spread : Option Int
  real_volume : Option Int
  deriving Repr, DecidableEq

/-- One row of a live_updater table (init_database, lines 89-106): the
datetime key is represented by the integer time, and is_completed is the
INTEGER flag column. -/
structure CandleRow where
  time : Int
  open_ : ℚ
  high : ℚ
  low : ℚ
  close : ℚ
  tick_volume : Int
  spread : Int
  real_volume : Int
  is_completed : Int
  deriving Repr, DecidableEq

/-- int(row['spread']) if 'spread' in row and not np.isnan(...) else 0. -/
def rateSpread (r : Rate) : Int := r.spread.getD 0

/-- int(row['real_volume']) if present and not NaN else 0. -/
def rateRealVolume (r : Rate) : Int := r.real_volume.getD 0

/-- The row written by the INSERT / UPDATE statements of update_database
(lines 276-315): every field is copied from the fetched bar, plus the
freshly computed is_completed flag. -/
def rowOfRate (r : Rate) (ic : Int) : CandleRow :=
  { time := r.time, open_ := r.open_, high := r.high, low := r.low, close := r.close,
    tick_volume := r.tick_volume, spread := rateSpread r, real_volume := rateRealVolume r,
    is_completed := ic }

/-- The existing_candles dict (lines 256-260): SELECT datetime, is_completed
and store into a dict keyed by datetime; later rows overwrite earlier
ones, hence the left fold. -/
def dbLookup (st : List CandleRow) (k : Int) : Option Int :=
  st.foldl (fun acc r => if r.time = k then some r.is_completed else acc) none

/-- Whether the table holds a row with the given key (the UNIQUE
constraint's view of the table). -/
def dbContains (st : List CandleRow) (k : Int) : Bool :=
  st.any (fun r => r.time = k)

/-- UPDATE "table" SET ... WHERE datetime = key: every matching row is
rewritten with the fetched bar's fields and the fresh flag. -/
def dbUpdate (st : List CandleRow) (k : Int) (r : Rate) (ic : Int) : List CandleRow :=
  st.map (fun row => if row.time = k then rowOfRate r ic else row)

/-- df['is_completed'] for one bar (lines 248-250): 1 if complete else 0. -/
def rateFlag (ct : Int) (tf : String) (r : Rate) : Except PyError Int :=
  match is_candle_complete ct r.time tf with
  | .error e => .error e
  | .ok b => .ok (if b then 1 else 0)

/-- The body of the per-candle loop of update_database (lines 268-318),
folded over (bar, freshly computed flag) pairs.  existing is the snapshot
dict read before the loop; a duplicate-key INSERT raises sqlite3.Error and
is skipped without counting (the dbContains guard). -/
def updStep (existing : List CandleRow) (acc : List CandleRow × Nat) (p : Rate × Int) :
    List CandleRow × Nat :=
  match dbLookup existing p.1.time with
  | some pc =>
      if pc = 0 ∨ pc ≠ p.2 then (dbUpdate acc.1 p.1.time p.1 p.2, acc.2 + 1) else acc
  | none =>
      if dbContains acc.1 p.1.time then acc else (acc.1 ++ [rowOfRate p.1 p.2], acc.2 + 1)

/-- live_updater.update_database (lines 212-325), given the fetched rates:
empty fetch returns 0 updates; otherwise the completion flag is computed
for every bar with one reference time, the existing keys are read once,
and each bar is inserted, updated, or skipped.  Returns the new table and
updated_count. -/
def update_database (st : List CandleRow) (rates : List Rate) (current_time : Int)
    (tf : String) : Except PyError (List CandleRow × Nat) :=
  if rates.isEmpty then .ok (st, 0)
  else
    match rates.mapM (rateFlag current_time tf) with
    | .error e => .error e
    | .ok ics => .ok ((rates.zip ics).foldl (updStep st) (st, 0))

/-- One step of the running-minimum loop of calculate_update_interval
(lines 336-339): Python's `if seconds and seconds < min_interval`, where
min_interval starts at float('inf') (modelled none). -/
def cuiStep (m : Option Int) (v : Int) : Option Int :=
  if (v != 0) && (match m with | none => true | some mv => v < mv) then some v else m

/-- The loop of calculate_update_interval: resolving a timeframe may raise
(propagates), a None result is skipped by truthiness. -/
def cuiFold (m : Option Int) : List String → Except PyError (Option Int)
  | [] => .ok m
  | tf :: rest =>
      match get_timeframe_seconds tf with
      | .error e => .error e
      | .ok (some v) => cuiFold (cuiStep m v) rest
      | .ok none => cuiFold m rest

/-- live_updater.calculate_update_interval (lines 327-347): min over the
resolvable timeframe periods (default 60 when none resolve), then
max(0.05, min(60, min_interval // 4)) with Python floor division. -/
def calculate_update_interval (tfs : List String) : Except PyError ℚ :=
  match cuiFold none tfs with
  | .error e => .error e
  | .ok m =>
      let mi : Int := m.getD 60
      .ok (max (1/20 : ℚ) (min 60 ((Int.fdiv mi 4 : Int) : ℚ)))

/-- The sleep the scheduler computes after a cycle (line 436):
sleep_time = max(0.05, update_interval - elapsed). -/
def compute_sleep_time (update_interval elapsed : ℚ) : ℚ :=
  max (1/20) (update_interval - elapsed)

/-- The duration actually passed to time.sleep at line 439: the constant
0.1, regardless of the computed sleep_time (which is only logged). -/
def actual_sleep_seconds : ℚ := 1/10

/-- One row of an AutoTrader/main.py table (init_database, lines 74-113):
same columns as the live table but with no is_completed column at all. -/
structure HistRow where
  time : Int
  open_ : ℚ
  high : ℚ
  low : ℚ
  close : ℚ
  tick_volume : Int
  spread : Int
  real_volume : Int
  deriving Repr, DecidableEq

/-- The row written by save_to_database's INSERT (lines 264-277). -/
def histRowOfRate (r : Rate) : HistRow :=
  { time := r.time, open_ := r.open_, high := r.high, low := r.low, close := r.close,
    tick_volume := r.tick_volume, spread := rateSpread r, real_volume := rateRealVolume r }

def histContains (st : List HistRow) (k : Int) : Bool :=
  st.any (fun row => row.time = k)

/-- The body of save_to_database's insert loop (lines 261-280): skip keys
already in the snapshot set; a duplicate-key INSERT within the batch hits
the UNIQUE constraint, is caught, and is not counted. -/
def saveStep (existing : List Int) (acc : List HistRow × Nat) (r : Rate) :
    List HistRow × Nat :=
  if r.time ∈ existing then acc
  else if histContains acc.1 r.time then acc
  else (acc.1 ++ [histRowOfRate r], acc.2 + 1)

/-- AutoTrader/main.save_to_database (lines 179-284): drop the last
(possibly still-forming) bar, then append-if-absent; returns the table and
(total_rows, inserted_rows). -/
def save_to_database (st : List HistRow) (data : List Rate) : List HistRow × (Nat × Nat) :=
  if data.isEmpty then (st, (0, 0))
  else
    let df := data.dropLast
    if df.isEmpty then (st, (0, 0))
    else
      let existing := st.map (fun row => row.time)
      let res := df.foldl (saveStep existing) (st, 0)
      (res.1, (df.length, res.2))

/-- The JSON object returned by the /ohlc endpoint (api_server.py lines
367-376). -/
structure OhlcResponse where
  symbol : String
  timeframe : String
  t : List Int
  o : List ℚ
  h : List ℚ
  l : List ℚ
  c : List ℚ
  v : List Int
  deriving Repr, DecidableEq

/-- The WHERE clause of /ohlc (lines 311-323): optional datetime lower and
upper bounds (datetime strings order exactly like the integer times they
encode) and the completed_only filter. -/
def ohlcCond (startT endT : Option Int) (completedOnly : Bool) (r : CandleRow) : Bool :=
  (match startT with | some s => decide (s ≤ r.time) | none => true)
  && (match endT with | some e => decide (r.time ≤ e) | none => true)
  && (if completedOnly then decide (r.is_completed = 1) else true)

/-- ORDER BY time DESC as a relation: a precedes b when b.time ≤ a.time. -/
def timeGE (a b : CandleRow) : Prop := b.time ≤ a.time

instance : DecidableRel timeGE := fun a b => inferInstanceAs (Decidable (b.time ≤ a.time))

instance : IsTotal CandleRow timeGE := ⟨fun a b => le_total b.time a.time⟩

instance : IsTrans CandleRow timeGE := ⟨fun _ _ _ hab hbc => le_trans hbc hab⟩

/-- The rows the /ohlc SQL query yields: WHERE filter, ORDER BY time DESC,
LIMIT. -/
def ohlcQueryRows (table : List CandleRow) (startT endT : Option Int) (limit : Nat)
    (completedOnly : Bool) : List CandleRow :=
  ((table.filter (ohlcCond startT endT completedOnly)).insertionSort timeGE).take limit

/-- api_server.get_ohlc_data (lines 288-376): 404 when the query yields no
rows; otherwise six per-column arrays, times multiplied by 1000, each
array reversed into chronological order. -/
def get_ohlc_data (table : List CandleRow) (symbol timeframe : String)
    (startT endT : Option Int) (limit : Nat) (completedOnly : Bool) :
    Except Nat OhlcResponse :=
  let rows := ohlcQueryRows table startT endT limit completedOnly
  if rows.isEmpty then .error 404
  else .ok
    { symbol := symbol, timeframe := timeframe,
      t := (rows.map (fun r => r.time * 1000)).reverse,
      o := (rows.map (fun r => r.open_)).reverse,
      h := (rows.map (fun r => r.high)).reverse,
      l := (rows.map (fun r => r.low)).reverse,
      c := (rows.map (fun r => r.close)).reverse,
      v := (rows.map (fun r => r.tick_volume)).reverse }

/-! Specification-side vocabulary used to state the claims. -/

/-- The spec's isComplete flag as the INTEGER the reconciler stores:
1 when referenceTime ≥ openTime + granularitySeconds, else 0. -/
def freshFlag (ct g t : Int) : Int := if t + g ≤ ct then 1 else 0

/-- A fetched bar whose openTime is absent from the persisted key set
(insert outcome). -/
def isNewBar (existing : List CandleRow) (r : Rate) : Bool :=
  (dbLookup existing r.time).isNone

/-- A fetched bar present in the persisted set whose persisted flag is 0 or
differs from the freshly computed flag (update outcome). -/
def isStaleBar (existing : List CandleRow) (ct g : Int) (r : Rate) : Bool :=
  match dbLookup existing r.time with
  | some pc => decide (pc = 0) || decide (pc ≠ freshFlag ct g r.time)
  | none => false

/-- A bar that causes a write (insert or update). -/
def shouldWrite (existing : List CandleRow) (ct g : Int) (r : Rate) : Bool :=
  isNewBar existing r || isStaleBar existing ct g r

/-- The reconciler's per-bar mutation, phrased the way the spec states it:
absent key → insert; present and (incomplete or flag changed) → update all
fields in place; otherwise no write.  Decisions read the snapshot taken
before the loop. -/
def specStep (existing : List CandleRow) (ct g : Int) (acc : List CandleRow) (r : Rate) :
    List CandleRow :=
  match dbLookup existing r.time with
  | none => acc ++ [rowOfRate r (freshFlag ct g r.time)]
  | some pc =>
      if pc = 0 ∨ pc ≠ freshFlag ct g r.time then
        dbUpdate acc r.time r (freshFlag ct g r.time)
      else acc

/-- The table produced by one reconciliation pass. -/
def dbRun (existing : List CandleRow) (ct g : Int) (rates : List Rate) : List CandleRow :=
  rates.foldl (specStep existing ct g) existing

/-- Uniqueness of the datetime key over a live table. -/
def keysUnique (st : List CandleRow) : Prop :=
  (st.map (fun r => r.time)).Nodup

/-- Uniqueness of the datetime key over a backfill table. -/
def histKeysUnique (st : List HistRow) : Prop :=
  (st.map (fun row => row.time)).Nodup


/-! Basic facts about the table model. -/

lemma dbLookup_foldl_acc (k : Int) (l : List CandleRow) :
    ∀ a : Option Int,
      l.foldl (fun acc r => if r.time = k then some r.is_completed else acc) a
        = (dbLookup l k).or a := by
  induction l with
  | nil => intro a; simp [dbLookup, Option.or]
  | cons r t ih =>
      intro a
      show t.foldl _ (if r.time = k then some r.is_completed else a) = _
      have hcons : dbLookup (r :: t) k
          = (dbLookup t k).or (if r.time = k then some r.is_completed else none) := by
        show t.foldl _ (if r.time = k then some r.is_completed else none) = _
        exact ih _
      rw [ih, hcons]
      cases dbLookup t k with
      | some v => simp [Option.or]
      | none => by_cases h : r.time = k <;> simp [h, Option.or]

lemma dbLookup_cons (r : CandleRow) (t : List CandleRow) (k : Int) :
    dbLookup (r :: t) k
      = (dbLookup t k).or (if r.time = k then some r.is_completed else none) := by
  show t.foldl _ (if r.time = k then some r.is_completed else none) = _
  exact dbLookup_foldl_acc k t _

lemma dbLookup_append_singleton (l : List CandleRow) (row : CandleRow) (k : Int) :
    dbLookup (l ++ [row]) k
      = if row.time = k then some row.is_completed else dbLookup l k := by
  show (l ++ [row]).foldl _ none = _
  rw [List.foldl_append]
  show (if row.time = k then some row.is_completed else dbLookup l k) = _
  rfl

lemma dbLookup_eq_none_iff (l : List CandleRow) (k : Int) :
    dbLookup l k = none ↔ dbContains l k = false := by
  induction l with
  | nil => simp [dbLookup, dbContains]
  | cons r t ih =>
      rw [dbLookup_cons]
      constructor
      · intro hc
        cases h : dbLookup t k with
        | some v => rw [h] at hc; simp [Option.or] at hc
        | none =>
            rw [h] at hc
            by_cases hr : r.time = k
            · simp [hr, Option.or] at hc
            · simp [dbContains, List.any_cons, hr]
              have := ih.mp h
              simpa [dbContains] using this
      · intro hc
        simp only [dbContains, List.any_cons, Bool.or_eq_false_iff] at hc
        have hr : ¬ r.time = k := by simpa using hc.1
        have ht : dbLookup t k = none := ih.mpr (by simpa [dbContains] using hc.2)
        simp [ht, hr, Option.or]

lemma dbContains_of_dbLookup_some {l : List CandleRow} {k : Int} {v : Int}
    (h : dbLookup l k = some v) : dbContains l k = true := by
  by_contra hc
  have hfalse : dbContains l k = false := by
    cases hcc : dbContains l k
    · rfl
    · exact absurd hcc hc
  rw [(dbLookup_eq_none_iff l k).mpr hfalse] at h
  exact absurd h (by simp)

lemma dbUpdate_map_time (l : List CandleRow) (k : Int) (r : Rate) (ic : Int)
    (hr : r.time = k) :
    (dbUpdate l k r ic).map (fun row => row.time) = l.map (fun row => row.time) := by
  induction l with
  | nil => rfl
  | cons row t ih =>
      show (if row.time = k then rowOfRate r ic else row).time
            :: (dbUpdate t k r ic).map (fun row => row.time)
          = row.time :: t.map (fun row => row.time)
      rw [ih]
      by_cases h : row.time = k
      · simp [h, rowOfRate, hr]
      · simp [h]

lemma dbContains_map_time (l : List CandleRow) (k : Int) :
    dbContains l k = (l.map (fun row => row.time)).any (fun x => x = k) := by
  induction l with
  | nil => rfl
  | cons row t ih =>
      simp only [dbContains, List.map_cons, List.any_cons]
      simp only [dbContains] at ih
      rw [ih]

lemma dbContains_dbUpdate (l : List CandleRow) (k k' : Int) (r : Rate) (ic : Int)
    (hr : r.time = k') :
    dbContains (dbUpdate l k' r ic) k = dbContains l k := by
  rw [dbContains_map_time, dbContains_map_time, dbUpdate_map_time l k' r ic hr]

lemma dbLookup_dbUpdate_ne (l : List CandleRow) (k k' : Int) (r : Rate) (ic : Int)
    (hr : r.time = k') (hne : k ≠ k') :
    dbLookup (dbUpdate l k' r ic) k = dbLookup l k := by
  induction l with
  | nil => rfl
  | cons row t ih =>
      show dbLookup ((if row.time = k' then rowOfRate r ic else row) :: dbUpdate t k' r ic) k = _
      rw [dbLookup_cons, dbLookup_cons, ih]
      by_cases h : row.time = k'
      · have ht : (rowOfRate r ic).time = k' := by simp [rowOfRate, hr]
        have h1 : ¬ ((if row.time = k' then rowOfRate r ic else row).time = k) := by
          simp [h, ht]
          intro hk
          exact hne hk.symm
        have h2 : ¬ (row.time = k) := by rw [h]; intro hk; exact hne hk.symm
        simp [h1, h2]
      · simp [h]

lemma dbLookup_dbUpdate_self (l : List CandleRow) (k : Int) (r : Rate) (ic : Int)
    (hr : r.time = k) (hc : dbContains l k = true) :
    dbLookup (dbUpdate l k r ic) k = some ic := by
  induction l with
  | nil => simp [dbContains] at hc
  | cons row t ih =>
      show dbLookup ((if row.time = k then rowOfRate r ic else row) :: dbUpdate t k r ic) k = _
      rw [dbLookup_cons]
      by_cases htc : dbContains t k = true
      · rw [ih htc]; simp [Option.or]
      · have ht' : dbContains t k = false := by
          cases hcc : dbContains t k
          · rfl
          · exact absurd hcc htc
        have hupd : dbLookup (dbUpdate t k r ic) k = none := by
          rw [dbLookup_eq_none_iff, dbContains_dbUpdate t k k r ic hr]
          exact ht'
        rw [hupd]
        have hrow : row.time = k := by
          simp only [dbContains, List.any_cons, Bool.or_eq_true] at hc
          rcases hc with hc | hc
          · exact of_decide_eq_true hc
          · rw [show (t.any fun r => decide (r.time = k)) = dbContains t k from rfl, ht'] at hc
            exact absurd hc (by simp)
        simp [hrow, rowOfRate, hr, Option.or]

lemma dbContains_append_singleton (l : List CandleRow) (row : CandleRow) (k : Int) :
    dbContains (l ++ [row]) k = (dbContains l k || decide (row.time = k)) := by
  simp [dbContains, List.any_append]

lemma exceptMapM_ok {α β : Type} (f : α → Except PyError β) (g : α → β) :
    ∀ l : List α, (∀ a ∈ l, f a = .ok (g a)) → l.mapM f = .ok (l.map g) := by
  intro l h
  induction l with
  | nil => rfl
  | cons a t ih =>
      simp only [List.mapM_cons, List.map_cons]
      rw [h a (List.mem_cons_self a t), ih (fun x hx => h x (List.mem_cons_of_mem a hx))]
      rfl

lemma countP_or_disjoint {α : Type} (p q : α → Bool) :
    ∀ l : List α, (∀ x ∈ l, ¬(p x = true ∧ q x = true)) →
      l.countP (fun x => p x || q x) = l.countP p + l.countP q := by
  intro l h
  induction l with
  | nil => simp
  | cons a t ih =>
      have ht := ih (fun x hx => h x (List.mem_cons_of_mem a hx))
      have ha := h a (List.mem_cons_self a t)
      rw [List.countP_cons, List.countP_cons, List.countP_cons, ht]
      cases hp : p a <;> cases hq : q a <;> simp [hp, hq] at ha ⊢ <;> omega

/-! Facts about the granularity catalog and completion oracle. -/

lemma gts_dvd {tf : String} {s : Int}
    (h : get_timeframe_seconds tf = .ok (some s)) : (4 : Int) ∣ s := by
  unfold get_timeframe_seconds at h
  by_cases hM : headIsChar 'M' tf = true
  · rw [if_pos hM] at h
    cases hp : pyIntChars (tf.data.drop 1) with
    | some n =>
        rw [hp] at h
        have hs : n * 60 = s := by simpa using h
        exact ⟨n * 15, by omega⟩
    | none => rw [hp] at h; exact absurd h (by simp)
  · rw [if_neg hM] at h
    by_cases hH : headIsChar 'H' tf = true
    · rw [if_pos hH] at h
      cases hp : pyIntChars (tf.data.drop 1) with
      | some n =>
          rw [hp] at h
          have hs : n * 3600 = s := by simpa using h
          exact ⟨n * 900, by omega⟩
      | none => rw [hp] at h; exact absurd h (by simp)
    · rw [if_neg hH] at h
      by_cases hD : tf.data = ['D', '1']
      · rw [if_pos hD] at h
        have hs : (86400 : Int) = s := by simpa using h
        exact ⟨21600, by omega⟩
      · rw [if_neg hD] at h
        by_cases hW : tf.data = ['W', '1']
        · rw [if_pos hW] at h
          have hs : (604800 : Int) = s := by simpa using h
          exact ⟨151200, by omega⟩
        · rw [if_neg hW] at h
          by_cases hN : tf.data = ['M', 'N', '1']
          · rw [if_pos hN] at h
            have hs : (2592000 : Int) = s := by simpa using h
            exact ⟨648000, by omega⟩
          · rw [if_neg hN] at h
            exact absurd h (by simp)

lemma icc_of_gts_some {tf : String} {g : Int}
    (hg : get_timeframe_seconds tf = .ok (some g)) (ct t : Int) :
    is_candle_complete ct t tf = .ok (decide (t + g ≤ ct)) := by
  unfold is_candle_complete
  rw [hg]

lemma rateFlag_of_gts_some {tf : String} {g : Int}
    (hg : get_timeframe_seconds tf = .ok (some g)) (ct : Int) (r : Rate) :
    rateFlag ct tf r = .ok (freshFlag ct g r.time) := by
  unfold rateFlag
  rw [icc_of_gts_some hg]
  by_cases h : r.time + g ≤ ct
  · simp [h, freshFlag]
  · simp [h, freshFlag]

lemma freshFlag_cases (ct g t : Int) : freshFlag ct g t = 0 ∨ freshFlag ct g t = 1 := by
  unfold freshFlag; split <;> simp

lemma freshFlag_eq_one_iff (ct g t : Int) : freshFlag ct g t = 1 ↔ t + g ≤ ct := by
  unfold freshFlag
  split <;> rename_i h <;> simp [h]

lemma freshFlag_mono {t1 t2 g T : Int} (h12 : t1 ≤ t2)
    (h : freshFlag t1 g T = 1) : freshFlag t2 g T = 1 := by
  rw [freshFlag_eq_one_iff] at h ⊢
  omega

/-! The reconciler's loop agrees with the spec's per-bar description. -/

lemma upd_fold_eq (E : List CandleRow) (ct g : Int) :
    ∀ (rates : List Rate) (acc : List CandleRow) (c : Nat),
      (rates.map (fun r => r.time)).Nodup →
      (∀ r ∈ rates, dbLookup acc r.time = dbLookup E r.time) →
      (rates.zip (rates.map (fun r => freshFlag ct g r.time))).foldl (updStep E) (acc, c)
        = (rates.foldl (specStep E ct g) acc, c + rates.countP (shouldWrite E ct g)) := by
  intro rates
  induction rates with
  | nil => intro acc c _ _; simp
  | cons a t ih =>
      intro acc c hnd hagr
      have hndt : (t.map (fun r => r.time)).Nodup :=
        (List.nodup_cons.mp (by simpa using hnd)).2
      have hat : a.time ∉ t.map (fun r => r.time) :=
        (List.nodup_cons.mp (by simpa using hnd)).1
      have hane : ∀ r ∈ t, r.time ≠ a.time := by
        intro r hr hcontra
        exact hat (hcontra ▸ List.mem_map_of_mem (fun x => x.time) hr)
      simp only [List.map_cons, List.zip_cons_cons, List.foldl_cons, List.countP_cons]
      cases hE : dbLookup E a.time with
      | none =>
          have hacc : dbLookup acc a.time = none := by
            rw [hagr a (List.mem_cons_self a t), hE]
          have hcont : dbContains acc a.time = false := (dbLookup_eq_none_iff _ _).mp hacc
          have hstep : updStep E (acc, c) (a, freshFlag ct g a.time)
              = (acc ++ [rowOfRate a (freshFlag ct g a.time)], c + 1) := by
            simp only [updStep]
            rw [hE, hcont]
            simp
          have hspec : specStep E ct g acc a
              = acc ++ [rowOfRate a (freshFlag ct g a.time)] := by
            simp only [specStep]; rw [hE]
          have hw : shouldWrite E ct g a = true := by
            simp only [shouldWrite, isNewBar]
            rw [hE]
            simp
          have hagr' : ∀ r ∈ t,
              dbLookup (acc ++ [rowOfRate a (freshFlag ct g a.time)]) r.time
                = dbLookup E r.time := by
            intro r hr
            rw [dbLookup_append_singleton]
            have hne : ¬ ((rowOfRate a (freshFlag ct g a.time)).time = r.time) := by
              simp only [rowOfRate]
              exact fun hh => hane r hr hh.symm
            rw [if_neg hne]
            exact hagr r (List.mem_cons_of_mem a hr)
          rw [hstep, ih _ (c + 1) hndt hagr', hspec, hw]
          exact congrArg (Prod.mk _) (by simp; omega)
      | some pc =>
          by_cases hcond : pc = 0 ∨ pc ≠ freshFlag ct g a.time
          · have hstep : updStep E (acc, c) (a, freshFlag ct g a.time)
                = (dbUpdate acc a.time a (freshFlag ct g a.time), c + 1) := by
              simp only [updStep]
              rw [hE]
              simp [hcond]
            have hspec : specStep E ct g acc a
                = dbUpdate acc a.time a (freshFlag ct g a.time) := by
              unfold specStep
              rw [hE]
              exact if_pos hcond
            have hw : shouldWrite E ct g a = true := by
              simp only [shouldWrite, isNewBar, isStaleBar]
              rw [hE]
              rcases hcond with hc | hc <;> simp [hc]
            have hagr' : ∀ r ∈ t,
                dbLookup (dbUpdate acc a.time a (freshFlag ct g a.time)) r.time
                  = dbLookup E r.time := by
              intro r hr
              rw [dbLookup_dbUpdate_ne acc r.time a.time a (freshFlag ct g a.time) rfl
                    (hane r hr)]
              exact hagr r (List.mem_cons_of_mem a hr)
            rw [hstep, ih _ (c + 1) hndt hagr', hspec, hw]
            exact congrArg (Prod.mk _) (by simp; omega)
          · have hstep : updStep E (acc, c) (a, freshFlag ct g a.time) = (acc, c) := by
              simp only [updStep]
              rw [hE]
              simp [hcond]
            have hspec : specStep E ct g acc a = acc := by
              unfold specStep
              rw [hE]
              exact if_neg hcond
            have hw : shouldWrite E ct g a = false := by
              simp only [shouldWrite, isNewBar, isStaleBar]
              rw [hE]
              push_neg at hcond
              rw [← hcond.2]
              simp [hcond.1]
            rw [hstep, ih _ c hndt (fun r hr => hagr r (List.mem_cons_of_mem a hr)), hspec,
                hw]
            simp

lemma update_database_run (st : List CandleRow) (rates : List Rate) (ct : Int) (tf : String)
    (g : Int) (hg : get_timeframe_seconds tf = .ok (some g))
    (hnd : (rates.map (fun r => r.time)).Nodup) :
    update_database st rates ct tf
      = .ok (dbRun st ct g rates, rates.countP (shouldWrite st ct g)) := by
  unfold update_database
  by_cases hre : rates.isEmpty
  · have hnil : rates = [] := by
      cases rates
      · rfl
      · exact absurd hre (by simp)
    subst hnil
    simp [dbRun]
  · rw [if_neg hre]
    rw [exceptMapM_ok (rateFlag ct tf) (fun r => freshFlag ct g r.time) rates
        (fun r _ => rateFlag_of_gts_some hg ct r)]
    show Except.ok
        ((rates.zip (rates.map fun r => freshFlag ct g r.time)).foldl (updStep st) (st, 0)) = _
    rw [upd_fold_eq st ct g rates st 0 hnd (fun r _ => rfl)]
    simp [dbRun]

/-! Where each key's binding ends up after a reconciliation pass. -/

lemma specStep_lookup_other (E : List CandleRow) (ct g : Int) (acc : List CandleRow)
    (a : Rate) (k : Int) (hk : k ≠ a.time) :
    dbLookup (specStep E ct g acc a) k = dbLookup acc k := by
  cases hE : dbLookup E a.time with
  | none =>
      have h : specStep E ct g acc a = acc ++ [rowOfRate a (freshFlag ct g a.time)] := by
        unfold specStep; rw [hE]
      rw [h, dbLookup_append_singleton]
      have hne : ¬ ((rowOfRate a (freshFlag ct g a.time)).time = k) := by
        simp only [rowOfRate]
        exact fun hh => hk hh.symm
      rw [if_neg hne]
  | some pc =>
      by_cases hc : pc = 0 ∨ pc ≠ freshFlag ct g a.time
      · have h : specStep E ct g acc a = dbUpdate acc a.time a (freshFlag ct g a.time) := by
          unfold specStep; rw [hE]; exact if_pos hc
        rw [h, dbLookup_dbUpdate_ne acc k a.time a _ rfl hk]
      · have h : specStep E ct g acc a = acc := by
          unfold specStep; rw [hE]; exact if_neg hc
        rw [h]

lemma dbRun_fold_lookup_not_mem (E : List CandleRow) (ct g : Int) :
    ∀ (rates : List Rate) (acc : List CandleRow) (k : Int),
      (∀ r ∈ rates, r.time ≠ k) →
      dbLookup (rates.foldl (specStep E ct g) acc) k = dbLookup acc k := by
  intro rates
  induction rates with
  | nil => intro acc k _; rfl
  | cons a t ih =>
      intro acc k hk
      simp only [List.foldl_cons]
      rw [ih _ k (fun r hr => hk r (List.mem_cons_of_mem a hr)),
          specStep_lookup_other E ct g acc a k (Ne.symm (hk a (List.mem_cons_self a t)))]

lemma dbRun_fold_lookup_mem (E : List CandleRow) (ct g : Int) :
    ∀ (rates : List Rate) (acc : List CandleRow),
      (rates.map (fun r => r.time)).Nodup →
      (∀ r' ∈ rates, dbLookup acc r'.time = dbLookup E r'.time) →
      ∀ r ∈ rates,
        dbLookup (rates.foldl (specStep E ct g) acc) r.time
          = some (freshFlag ct g r.time) := by
  intro rates
  induction rates with
  | nil => intro acc _ _ r hr; cases hr
  | cons a t ih =>
      intro acc hnd hagr r hr
      have hndt : (t.map (fun x => x.time)).Nodup :=
        (List.nodup_cons.mp (by simpa using hnd)).2
      have hat : a.time ∉ t.map (fun x => x.time) :=
        (List.nodup_cons.mp (by simpa using hnd)).1
      have hane : ∀ x ∈ t, x.time ≠ a.time := fun x hx hcon =>
        hat (hcon ▸ List.mem_map_of_mem (fun y => y.time) hx)
      simp only [List.foldl_cons]
      rcases List.mem_cons.mp hr with hra | hrt
      · subst hra
        rw [dbRun_fold_lookup_not_mem E ct g t (specStep E ct g acc r) r.time hane]
        cases hE : dbLookup E r.time with
        | none =>
            have h : specStep E ct g acc r = acc ++ [rowOfRate r (freshFlag ct g r.time)] := by
              unfold specStep; rw [hE]
            rw [h, dbLookup_append_singleton]
            have ht : (rowOfRate r (freshFlag ct g r.time)).time = r.time := rfl
            rw [if_pos ht]
            rfl
        | some pc =>
            by_cases hc : pc = 0 ∨ pc ≠ freshFlag ct g r.time
            · have h : specStep E ct g acc r
                  = dbUpdate acc r.time r (freshFlag ct g r.time) := by
                unfold specStep; rw [hE]; exact if_pos hc
              rw [h]
              have hcontains : dbContains acc r.time = true := by
                apply dbContains_of_dbLookup_some (v := pc)
                rw [hagr r (List.mem_cons_self r t), hE]
              exact dbLookup_dbUpdate_self acc r.time r _ rfl hcontains
            · have h : specStep E ct g acc r = acc := by
                unfold specStep; rw [hE]; exact if_neg hc
              rw [h]
              push_neg at hc
              rw [hagr r (List.mem_cons_self r t), hE, hc.2]
      · refine ih (specStep E ct g acc a) hndt ?_ r hrt
        intro r' hr'
        rw [specStep_lookup_other E ct g acc a r'.time (hane r' hr')]
        exact hagr r' (List.mem_cons_of_mem a hr')

lemma dbRun_lookup_mem (E : List CandleRow) (ct g : Int) (rates : List Rate)
    (hnd : (rates.map (fun r => r.time)).Nodup) (r : Rate) (hr : r ∈ rates) :
    dbLookup (dbRun E ct g rates) r.time = some (freshFlag ct g r.time) :=
  dbRun_fold_lookup_mem E ct g rates E hnd (fun _ _ => rfl) r hr

lemma dbRun_lookup_not_mem (E : List CandleRow) (ct g : Int) (rates : List Rate) (k : Int)
    (hk : ∀ r ∈ rates, r.time ≠ k) :
    dbLookup (dbRun E ct g rates) k = dbLookup E k :=
  dbRun_fold_lookup_not_mem E ct g rates E k hk

/-! Concrete fixtures for witnesses and counterexamples. -/

/-- A fetched bar with the given open time and price. -/
def mkRate (t : Int) (c : ℚ) : Rate :=
  { time := t, open_ := c, high := c, low := c, close := c,
    tick_volume := 1, spread := some 0, real_volume := some 0 }

/-- The spec's first-cycle window: bars opening at 100 and 160. -/
def cyc1rates : List Rate := [mkRate 100 (11/10), mkRate 160 (12/10)]

/-- The spec's second/third-cycle window: bars opening at 160 and 220. -/
def cyc2rates : List Rate := [mkRate 160 (125/100), mkRate 220 (13/10)]

/-- The persisted table after the spec's second cycle: 100 and 160
complete, 220 still forming. -/
def s2store : List CandleRow :=
  [rowOfRate (mkRate 100 (11/10)) 1, rowOfRate (mkRate 160 (125/100)) 1,
   rowOfRate (mkRate 220 (13/10)) 0]

/-! Claims. -/

/-- Claim C1: each fetched bar processed by update_database meets exactly
one of three outcomes — key absent from the persisted snapshot → insert;
key present with persisted flag 0 or different from the fresh flag →
update all fields in place; otherwise no write — and updatedCount is the
number of inserts plus the number of updates.  dbRun folds exactly that
per-bar mutation, and the two countP summands count the insert and update
outcomes, which are mutually exclusive. -/
theorem claim1_reconcile_outcomes (st : List CandleRow) (rates : List Rate) (ct : Int)
    (tf : String) (g : Int)
    (hg : get_timeframe_seconds tf = .ok (some g))
    (hnd : (rates.map (fun r => r.time)).Nodup) :
    update_database st rates ct tf
      = .ok (dbRun st ct g rates,
             rates.countP (isNewBar st) + rates.countP (isStaleBar st ct g)) := by
  rw [update_database_run st rates ct tf g hg hnd]
  have hdisj : ∀ x ∈ rates, ¬(isNewBar st x = true ∧ isStaleBar st ct g x = true) := by
    intro x _ hx
    obtain ⟨h1, h2⟩ := hx
    simp only [isNewBar] at h1
    simp only [isStaleBar] at h2
    cases hE : dbLookup st x.time with
    | none => rw [hE] at h2; exact absurd h2 (by simp)
    | some pc => rw [hE] at h1; exact absurd h1 (by simp)
  have hc := countP_or_disjoint (isNewBar st) (isStaleBar st ct g) rates hdisj
  have heq : rates.countP (shouldWrite st ct g)
      = rates.countP (fun x => isNewBar st x || isStaleBar st ct g x) := rfl
  rw [heq, hc]

theorem claim1_witness :
    update_database s2store cyc2rates 225 "M1"
      = .ok (dbRun s2store 225 60 cyc2rates,
             cyc2rates.countP (isNewBar s2store)
               + cyc2rates.countP (isStaleBar s2store 225 60)) :=
  claim1_reconcile_outcomes s2store cyc2rates 225 "M1" 60 (by decide) (by decide)

/-- Claim C2 counterexample: running the spec's three cycles (empty store;
window {100,160} at reference 165; window {160,220} at 225; the identical
window {160,220} again at 226) gives updatedCount 2 on the second cycle
but 1 — not 0 — on the third: the persisted bar 220 is still incomplete,
so the code's "persisted flag is 0" branch rewrites it and counts it even
though nothing changed. -/
theorem claim2_counterexample :
    (match update_database [] cyc1rates 165 "M1" with
     | .ok p1 =>
        match update_database p1.1 cyc2rates 225 "M1" with
        | .ok p2 =>
            match update_database p2.1 cyc2rates 226 "M1" with
            | .ok p3 => some (p2.2, p3.2)
            | .error _ => none
        | .error _ => none
     | .error _ => (none : Option (Nat × Nat))) = some (2, 1)
      ∧ (some ((2 : Nat), (1 : Nat)) : Option (Nat × Nat)) ≠ some (2, 0) := by
  constructor
  · rfl
  · decide

/-- Claim C2 (amended): a second reconciliation of the identical window at
a reference time no earlier than the first is idempotent only up to the
still-forming bar: its updatedCount equals the number of window bars that
were still incomplete at the first run's reference time, and is zero
precisely when every bar of the window was already complete.  In the
spec's third-cycle scenario that count is 1 (bar 220), not 0. -/
theorem claim2_amended_second_run (st : List CandleRow) (rates : List Rate) (t1 t2 : Int)
    (tf : String) (g : Int) (s1 s2 : List CandleRow) (n1 n2 : Nat)
    (hg : get_timeframe_seconds tf = .ok (some g))
    (hnd : (rates.map (fun r => r.time)).Nodup)
    (h12 : t1 ≤ t2)
    (h1 : update_database st rates t1 tf = .ok (s1, n1))
    (h2 : update_database s1 rates t2 tf = .ok (s2, n2)) :
    n2 = rates.countP (fun r => freshFlag t1 g r.time == 0)
      ∧ (n2 = 0 ↔ ∀ r ∈ rates, freshFlag t1 g r.time = 1) := by
  rw [update_database_run st rates t1 tf g hg hnd] at h1
  have hs1 : dbRun st t1 g rates = s1 := congrArg Prod.fst (Except.ok.inj h1)
  subst hs1
  rw [update_database_run _ rates t2 tf g hg hnd] at h2
  have hn2 : rates.countP (shouldWrite (dbRun st t1 g rates) t2 g) = n2 :=
    congrArg Prod.snd (Except.ok.inj h2)
  have hcong : ∀ r ∈ rates,
      shouldWrite (dbRun st t1 g rates) t2 g r = (freshFlag t1 g r.time == 0) := by
    intro r hr
    have hb := dbRun_lookup_mem st t1 g rates hnd r hr
    simp only [shouldWrite, isNewBar, isStaleBar]
    rw [hb]
    rcases freshFlag_cases t1 g r.time with h0 | h1f
    · rw [h0]; simp
    · rw [h1f]
      have h2f : freshFlag t2 g r.time = 1 := freshFlag_mono h12 h1f
      rw [h2f]
      simp
  have hcnt : rates.countP (shouldWrite (dbRun st t1 g rates) t2 g)
      = rates.countP (fun r => freshFlag t1 g r.time == 0) :=
    List.countP_congr (fun r hr => by rw [hcong r hr])
  constructor
  · rw [← hn2, hcnt]
  · rw [← hn2, hcnt, List.countP_eq_zero]
    constructor
    · intro h r hr
      have hh := h r hr
      rcases freshFlag_cases t1 g r.time with h0 | h1f
      · exfalso
        apply hh
        rw [h0]
        rfl
      · exact h1f
    · intro h r hr
      rw [h r hr]
      simp

theorem claim2_amended_witness :
    (1 : Nat) = cyc2rates.countP (fun r => freshFlag 225 60 r.time == 0) :=
  (claim2_amended_second_run s2store cyc2rates 225 226 "M1" 60 s2store s2store 1 1
    (by decide) (by decide) (by norm_num) rfl rfl).1

/-- Claim C3: for every label whose period the catalog resolves to G
seconds, is_candle_complete returns true exactly when the reference time
has reached openTime + G, the boundary included. -/
theorem claim3_completion_oracle (R T G : Int) (lbl : String)
    (hG : get_timeframe_seconds lbl = .ok (some G)) :
    is_candle_complete R T lbl = .ok (decide (T + G ≤ R))
      ∧ (is_candle_complete R T lbl = .ok true ↔ T + G ≤ R) := by
  have h := icc_of_gts_some hG R T
  refine ⟨h, ?_⟩
  rw [h]
  constructor
  · intro hh
    have hd : decide (T + G ≤ R) = true := by simpa using hh
    exact of_decide_eq_true hd
  · intro hh
    rw [decide_eq_true hh]

theorem claim3_witness :
    is_candle_complete 160 100 "M1" = .ok (decide ((100 : Int) + 60 ≤ 160))
      ∧ (is_candle_complete 160 100 "M1" = .ok true ↔ (100 : Int) + 60 ≤ 160) :=
  claim3_completion_oracle 160 100 60 "M1" (by decide)

/-- Claim C5: after a cycle the scheduler computes
sleep_time = max(0.05, interval − elapsed), but what it actually sleeps is
the constant 0.1 seconds (line 439 passes 0.1, not sleep_time): at
interval 15 s and elapsed 1 s the computed self-correcting sleep is 14 s,
while the slept duration stays 0.1 s. -/
theorem claim5_sleep_is_constant :
    compute_sleep_time 15 1 = 14
      ∧ actual_sleep_seconds = 1/10
      ∧ actual_sleep_seconds ≠ compute_sleep_time 15 1 := by
  have h : compute_sleep_time 15 1 = 14 := by
    unfold compute_sleep_time
    rw [show (15 : ℚ) - 1 = 14 by norm_num]
    exact max_eq_right (by norm_num)
  refine ⟨h, rfl, ?_⟩
  rw [h]
  unfold actual_sleep_seconds
  norm_num

/-- Claim C6: the catalog resolves every label of the fixed table except
"MN1": every other catalog label yields its period and a label outside
the table that avoids the M/H prefixes yields none (reported unknown),
but "MN1" — whose period the dead elif says is 2592000 — raises
ValueError instead, because the startswith('M') branch captures it first
and int("N1") fails; the same slip makes non-catalog M/H-prefixed labels
such as "Monthly" raise instead of returning none. -/
theorem claim6_granularity_catalog :
    ["MN1", "M1", "M2", "M3", "M4", "M5", "M6", "M10", "M12", "M15", "M20", "M30",
     "H1", "H2", "H3", "H4", "H6", "H8", "H12", "D1", "W1",
     "S30", "Monthly"].map get_timeframe_seconds
      = [.error .valueError, .ok (some 60), .ok (some 120), .ok (some 180), .ok (some 240),
         .ok (some 300), .ok (some 360), .ok (some 600), .ok (some 720), .ok (some 900),
         .ok (some 1200), .ok (some 1800),
         .ok (some 3600), .ok (some 7200), .ok (some 10800), .ok (some 14400),
         .ok (some 21600), .ok (some 28800), .ok (some 43200), .ok (some 86400),
         .ok (some 604800),
         .ok none, .error .valueError] := by
  decide

/-- Claim C7: a bar whose flag a reconciliation left at 1 is never
reverted by a later reconciliation under a non-decreasing reference
clock: the flag could only have become 1 because the reference time had
passed the bar's close, so every later pass recomputes it as 1 (and the
already-complete, unchanged row is skipped) or leaves the row untouched. -/
theorem claim7_completion_monotone (st : List CandleRow) (rates1 rates2 : List Rate)
    (t1 t2 : Int) (tf : String) (g : Int) (s1 s2 : List CandleRow) (n1 n2 : Nat) (T : Int)
    (hg : get_timeframe_seconds tf = .ok (some g))
    (hnd1 : (rates1.map (fun r => r.time)).Nodup)
    (hnd2 : (rates2.map (fun r => r.time)).Nodup)
    (h12 : t1 ≤ t2)
    (hT : T ∈ rates1.map (fun r => r.time))
    (h1 : update_database st rates1 t1 tf = .ok (s1, n1))
    (hflag : dbLookup s1 T = some 1)
    (h2 : update_database s1 rates2 t2 tf = .ok (s2, n2)) :
    dbLookup s2 T = some 1 := by
  rw [update_database_run st rates1 t1 tf g hg hnd1] at h1
  have hs1 : dbRun st t1 g rates1 = s1 := congrArg Prod.fst (Except.ok.inj h1)
  subst hs1
  obtain ⟨r1, hr1, hr1T⟩ := List.mem_map.mp hT
  have hb := dbRun_lookup_mem st t1 g rates1 hnd1 r1 hr1
  rw [hr1T] at hb
  rw [hb] at hflag
  have hf1 : freshFlag t1 g T = 1 := Option.some.inj hflag
  have hf2 : freshFlag t2 g T = 1 := freshFlag_mono h12 hf1
  rw [update_database_run _ rates2 t2 tf g hg hnd2] at h2
  have hs2 : dbRun (dbRun st t1 g rates1) t2 g rates2 = s2 :=
    congrArg Prod.fst (Except.ok.inj h2)
  subst hs2
  by_cases hmem : T ∈ rates2.map (fun r => r.time)
  · obtain ⟨r2, hr2, hr2T⟩ := List.mem_map.mp hmem
    have hb2 := dbRun_lookup_mem (dbRun st t1 g rates1) t2 g rates2 hnd2 r2 hr2
    rw [hr2T] at hb2
    rw [hb2, hf2]
  · have hnm : ∀ r ∈ rates2, r.time ≠ T := by
      intro r hr hcon
      exact hmem (hcon ▸ List.mem_map_of_mem (fun x => x.time) hr)
    rw [dbRun_lookup_not_mem (dbRun st t1 g rates1) t2 g rates2 T hnm, hb, hf1]

/-- The single bar used by the monotonicity witness. -/
def w7rate : Rate := mkRate 100 1

theorem claim7_witness :
    dbLookup [rowOfRate w7rate 1] 100 = some 1 :=
  claim7_completion_monotone [] [w7rate] [w7rate] 165 166 "M1" 60
    [rowOfRate w7rate 1] [rowOfRate w7rate 1] 1 0 100
    (by decide) (by decide) (by decide) (by norm_num) (by decide) rfl rfl rfl

/-! Key-uniqueness preservation (C8). -/

lemma not_mem_map_of_not_contains (l : List CandleRow) (k : Int)
    (h : dbContains l k = false) : k ∉ l.map (fun r => r.time) := by
  intro hmem
  obtain ⟨r, hr, hrk⟩ := List.mem_map.mp hmem
  have htrue : dbContains l k = true := by
    unfold dbContains
    rw [List.any_eq_true]
    exact ⟨r, hr, by simpa using hrk⟩
  rw [h] at htrue
  exact absurd htrue (by simp)

lemma hist_not_mem_map_of_not_contains (l : List HistRow) (k : Int)
    (h : histContains l k = false) : k ∉ l.map (fun row => row.time) := by
  intro hmem
  obtain ⟨r, hr, hrk⟩ := List.mem_map.mp hmem
  have htrue : histContains l k = true := by
    unfold histContains
    rw [List.any_eq_true]
    exact ⟨r, hr, by simpa using hrk⟩
  rw [h] at htrue
  exact absurd htrue (by simp)

lemma keysUnique_append_new (l : List CandleRow) (row : CandleRow)
    (h : keysUnique l) (hc : dbContains l row.time = false) :
    keysUnique (l ++ [row]) := by
  unfold keysUnique at h ⊢
  rw [List.map_append]
  refine List.Nodup.append h (by simp) ?_
  intro x hx hx2
  simp only [List.map_cons, List.map_nil, List.mem_singleton] at hx2
  subst hx2
  exact not_mem_map_of_not_contains l row.time hc hx

lemma histKeysUnique_append_new (l : List HistRow) (row : HistRow)
    (h : histKeysUnique l) (hc : histContains l row.time = false) :
    histKeysUnique (l ++ [row]) := by
  unfold histKeysUnique at h ⊢
  rw [List.map_append]
  refine List.Nodup.append h (by simp) ?_
  intro x hx hx2
  simp only [List.map_cons, List.map_nil, List.mem_singleton] at hx2
  subst hx2
  exact hist_not_mem_map_of_not_contains l row.time hc hx

lemma updStep_fold_preserves_unique (E : List CandleRow) :
    ∀ (ps : List (Rate × Int)) (acc : List CandleRow) (c : Nat),
      keysUnique acc → keysUnique (ps.foldl (updStep E) (acc, c)).1 := by
  intro ps
  induction ps with
  | nil => intro acc c h; exact h
  | cons p t ih =>
      intro acc c h
      simp only [List.foldl_cons]
      cases hE : dbLookup E p.1.time with
      | some pc =>
          by_cases hc : pc = 0 ∨ pc ≠ p.2
          · have hstep : updStep E (acc, c) p = (dbUpdate acc p.1.time p.1 p.2, c + 1) := by
              unfold updStep; rw [hE]; exact if_pos hc
            rw [hstep]
            apply ih
            unfold keysUnique
            rw [dbUpdate_map_time acc p.1.time p.1 p.2 rfl]
            exact h
          · have hstep : updStep E (acc, c) p = (acc, c) := by
              unfold updStep; rw [hE]; exact if_neg hc
            rw [hstep]
            exact ih acc c h
      | none =>
          by_cases hcont : dbContains acc p.1.time = true
          · have hstep : updStep E (acc, c) p = (acc, c) := by
              unfold updStep; rw [hE]; exact if_pos hcont
            rw [hstep]
            exact ih acc c h
          · have hcf : dbContains acc p.1.time = false := by
              cases hcc : dbContains acc p.1.time
              · rfl
              · exact absurd hcc hcont
            have hstep : updStep E (acc, c) p = (acc ++ [rowOfRate p.1 p.2], c + 1) := by
              unfold updStep; rw [hE]; exact if_neg hcont
            rw [hstep]
            exact ih _ _ (keysUnique_append_new acc (rowOfRate p.1 p.2) h hcf)

lemma saveStep_fold_preserves_unique (ext : List Int) :
    ∀ (l : List Rate) (acc : List HistRow) (c : Nat),
      histKeysUnique acc → histKeysUnique (l.foldl (saveStep ext) (acc, c)).1 := by
  intro l
  induction l with
  | nil => intro acc c h; exact h
  | cons r t ih =>
      intro acc c h
      simp only [List.foldl_cons]
      by_cases h1 : r.time ∈ ext
      · have hstep : saveStep ext (acc, c) r = (acc, c) := by
          unfold saveStep; exact if_pos h1
        rw [hstep]
        exact ih acc c h
      · by_cases h2 : histContains acc r.time = true
        · have hstep : saveStep ext (acc, c) r = (acc, c) := by
            unfold saveStep
            rw [if_neg h1]
            exact if_pos h2
          rw [hstep]
          exact ih acc c h
        · have hcf : histContains acc r.time = false := by
            cases hcc : histContains acc r.time
            · rfl
            · exact absurd hcc h2
          have hstep : saveStep ext (acc, c) r = (acc ++ [histRowOfRate r], c + 1) := by
            unfold saveStep
            rw [if_neg h1]
            exact if_neg h2
          rw [hstep]
          exact ih _ _ (histKeysUnique_append_new acc (histRowOfRate r) h hcf)

/-- Claim C8: both write paths preserve key uniqueness — update_database
inserts only keys absent from the table (the UNIQUE constraint blocks
in-batch duplicates) and updates address an existing key in place, and
save_to_database only appends keys absent from both the snapshot and the
table — so no two stored bars ever share an openTime. -/
theorem claim8_key_uniqueness :
    (∀ (st : List CandleRow) (rates : List Rate) (ct : Int) (tf : String)
        (s2 : List CandleRow) (n : Nat),
        update_database st rates ct tf = .ok (s2, n) → keysUnique st → keysUnique s2)
      ∧ (∀ (st : List HistRow) (data : List Rate),
          histKeysUnique st → histKeysUnique (save_to_database st data).1) := by
  constructor
  · intro st rates ct tf s2 n hrun hU
    unfold update_database at hrun
    by_cases hre : rates.isEmpty
    · rw [if_pos hre] at hrun
      have hh : st = s2 := congrArg Prod.fst (Except.ok.inj hrun)
      rwa [← hh]
    · rw [if_neg hre] at hrun
      cases hm : rates.mapM (rateFlag ct tf) with
      | error e => rw [hm] at hrun; exact absurd hrun (by simp)
      | ok ics =>
          rw [hm] at hrun
          have hs : ((rates.zip ics).foldl (updStep st) (st, 0)).1 = s2 :=
            congrArg Prod.fst (Except.ok.inj hrun)
          rw [← hs]
          exact updStep_fold_preserves_unique st (rates.zip ics) st 0 hU
  · intro st data hU
    unfold save_to_database
    by_cases h1 : data.isEmpty
    · rw [if_pos h1]
      exact hU
    · rw [if_neg h1]
      by_cases h2 : data.dropLast.isEmpty
      · simp only [if_pos h2]
        exact hU
      · simp only [if_neg h2]
        exact saveStep_fold_preserves_unique (st.map (fun row => row.time))
          data.dropLast st 0 hU

theorem claim8_witness :
    keysUnique [rowOfRate (mkRate 100 1) 1]
      ∧ histKeysUnique (save_to_database [] [mkRate 100 1, mkRate 160 1]).1 :=
  ⟨claim8_key_uniqueness.1 [] [mkRate 100 1] 165 "M1" [rowOfRate (mkRate 100 1) 1] 1 rfl
      (by simp [keysUnique]),
   claim8_key_uniqueness.2 [] [mkRate 100 1, mkRate 160 1] (by simp [histKeysUnique])⟩

/-! The backfill variant inserts every non-last bar of a clean window into
an empty series (C9). -/

lemma histContains_append_singleton (l : List HistRow) (row : HistRow) (k : Int) :
    histContains (l ++ [row]) k = (histContains l k || decide (row.time = k)) := by
  simp [histContains, List.any_append]

lemma save_fold_all_new (ext : List Int) :
    ∀ (l : List Rate) (acc : List HistRow) (c : Nat),
      (l.map (fun r => r.time)).Nodup →
      (∀ r ∈ l, r.time ∉ ext) →
      (∀ r ∈ l, histContains acc r.time = false) →
      l.foldl (saveStep ext) (acc, c) = (acc ++ l.map histRowOfRate, c + l.length) := by
  intro l
  induction l with
  | nil => intro acc c _ _ _; simp
  | cons a t ih =>
      intro acc c hnd hext hcont
      have hndt : (t.map (fun r => r.time)).Nodup :=
        (List.nodup_cons.mp (by simpa using hnd)).2
      have hat : a.time ∉ t.map (fun r => r.time) :=
        (List.nodup_cons.mp (by simpa using hnd)).1
      simp only [List.foldl_cons]
      have hstep : saveStep ext (acc, c) a = (acc ++ [histRowOfRate a], c + 1) := by
        unfold saveStep
        rw [if_neg (hext a (List.mem_cons_self a t))]
        exact if_neg (by rw [hcont a (List.mem_cons_self a t)]; simp)
      rw [hstep]
      rw [ih (acc ++ [histRowOfRate a]) (c + 1) hndt
            (fun r hr => hext r (List.mem_cons_of_mem a hr)) ?_]
      · simp only [List.map_cons, List.length_cons, List.append_assoc,
          List.singleton_append]
        exact congrArg (Prod.mk _) (by omega)
      · intro r hr
        rw [histContains_append_singleton]
        have h1 : histContains acc r.time = false := hcont r (List.mem_cons_of_mem a hr)
        have h2 : ¬ ((histRowOfRate a).time = r.time) := by
          simp only [histRowOfRate]
          intro hh
          exact hat (hh ▸ List.mem_map_of_mem (fun x => x.time) hr)
        simp [h1, h2]

/-- Claim C9: a bulk load of a clean window of N ≥ 1 bars into an empty
series drops exactly the last bar and appends the rest: total_rows and
inserted_rows both equal N − 1, the stored rows are exactly the images of
the first N − 1 bars (a row type with no isCompleted column at all), and
the last bar's key is never stored. -/
theorem claim9_backfill_drops_last (data : List Rate)
    (hne : data ≠ [])
    (hnd : (data.map (fun r => r.time)).Nodup) :
    (save_to_database [] data).2.2 = data.length - 1
      ∧ (save_to_database [] data).2.1 = data.length - 1
      ∧ (save_to_database [] data).1 = data.dropLast.map histRowOfRate
      ∧ (data.getLast hne).time ∉ ((save_to_database [] data).1.map (fun row => row.time)) := by
  have hlast : (data.getLast hne).time ∉ data.dropLast.map (fun r => r.time) := by
    have hsplit : data.dropLast ++ [data.getLast hne] = data :=
      List.dropLast_append_getLast hne
    rw [← hsplit] at hnd
    rw [List.map_append] at hnd
    obtain ⟨-, -, hdisj⟩ := List.nodup_append.mp hnd
    intro hmem
    exact hdisj hmem (by simp)
  unfold save_to_database
  rw [if_neg (by simpa using hne)]
  by_cases h2 : data.dropLast.isEmpty
  · have hdl : data.dropLast = [] := by
      cases hq : data.dropLast
      · rfl
      · rw [hq] at h2; exact absurd h2 (by simp)
    have hlen : data.length = 1 := by
      cases data with
      | nil => exact absurd rfl hne
      | cons x xs =>
          have hxs : xs = [] := by
            cases xs with
            | nil => rfl
            | cons y ys =>
                have hdl2 : (x :: y :: ys).dropLast = x :: (y :: ys).dropLast := rfl
                rw [hdl2] at hdl
                exact absurd hdl (by simp)
          rw [hxs]
          rfl
    simp only [if_pos h2]
    refine ⟨by simp [hlen], by simp [hlen], by simp [hdl], ?_⟩
    simp
  · simp only [if_neg h2]
    have hndd : (data.dropLast.map (fun r => r.time)).Nodup := by
      refine List.Nodup.sublist ?_ hnd
      exact List.Sublist.map (fun r => r.time) (List.dropLast_sublist data)
    simp only [List.map_nil]
    rw [save_fold_all_new [] data.dropLast [] 0 hndd (by simp) (fun r _ => rfl)]
    simp only [List.nil_append, Nat.zero_add]
    refine ⟨by simp [List.length_dropLast], by simp [List.length_dropLast], by trivial, ?_⟩
    · rw [List.map_map]
      have hco : ((fun row => HistRow.time row) ∘ histRowOfRate) = (fun r => r.time) := by
        funext r
        rfl
      rw [hco]
      exact hlast

/-- A clean 50-bar window for the bulk-backfill witness. -/
def data50 : List Rate := (List.range 50).map (fun i => mkRate (60 * (i : Int)) 1)

theorem claim9_witness : (save_to_database [] data50).2.2 = 49 := by
  have h := (claim9_backfill_drops_last data50 (by decide) (by decide)).1
  rw [h]
  decide

/-! The scheduler's interval policy (C4). -/

/-- The period a label resolves to when get_timeframe_seconds succeeds
with a value (proof-side helper; 0 otherwise). -/
def resolveD (tf : String) : Int :=
  match get_timeframe_seconds tf with
  | .ok (some s) => s
  | _ => 0

lemma cuiFold_ok : ∀ (tfs : List String),
    (∀ tf ∈ tfs, get_timeframe_seconds tf = .ok (some (resolveD tf))) →
    ∀ m : Option Int,
      cuiFold m tfs = .ok (tfs.foldl (fun mm tf => cuiStep mm (resolveD tf)) m) := by
  intro tfs
  induction tfs with
  | nil => intro _ m; rfl
  | cons a t ih =>
      intro hok m
      have ha := hok a (List.mem_cons_self a t)
      show (match get_timeframe_seconds a with
            | Except.error e => Except.error e
            | Except.ok (some v) => cuiFold (cuiStep m v) t
            | Except.ok none => cuiFold m t) = _
      rw [ha]
      simp only [List.foldl_cons]
      exact ih (fun tf h => hok tf (List.mem_cons_of_mem a h)) (cuiStep m (resolveD a))

lemma cuiPureFold_pos : ∀ (tfs : List String),
    (∀ tf ∈ tfs, 0 < resolveD tf) →
    ∀ a : Int, tfs.foldl (fun mm tf => cuiStep mm (resolveD tf)) (some a)
      = some ((tfs.map resolveD).foldl min a) := by
  intro tfs
  induction tfs with
  | nil => intro _ a; rfl
  | cons x t ih =>
      intro hpos a
      have hx := hpos x (List.mem_cons_self x t)
      have h0 : resolveD x ≠ 0 := ne_of_gt hx
      simp only [List.foldl_cons, List.map_cons]
      have hstep : cuiStep (some a) (resolveD x) = some (min a (resolveD x)) := by
        simp only [cuiStep]
        by_cases h : resolveD x < a
        · rw [if_pos (by simp [h0, h])]
          rw [min_eq_right (le_of_lt h)]
        · rw [if_neg (by simp [h0, h])]
          rw [min_eq_left (le_of_not_lt h)]
      rw [hstep]
      exact ih (fun tf h => hpos tf (List.mem_cons_of_mem x h)) (min a (resolveD x))

lemma foldl_min_le (l : List Int) :
    ∀ a : Int, l.foldl min a ≤ a ∧ ∀ x ∈ l, l.foldl min a ≤ x := by
  induction l with
  | nil => intro a; exact ⟨le_refl a, by simp⟩
  | cons b t ih =>
      intro a
      simp only [List.foldl_cons]
      obtain ⟨h1, h2⟩ := ih (min a b)
      refine ⟨le_trans h1 (min_le_left a b), ?_⟩
      intro x hx
      rcases List.mem_cons.mp hx with hxb | hx
      · subst hxb
        exact le_trans h1 (min_le_right a x)
      · exact h2 x hx

lemma foldl_min_mem (l : List Int) :
    ∀ a : Int, l.foldl min a = a ∨ l.foldl min a ∈ l := by
  induction l with
  | nil => intro a; exact Or.inl rfl
  | cons b t ih =>
      intro a
      simp only [List.foldl_cons]
      rcases ih (min a b) with h | h
      · rcases le_total a b with hab | hba
        · exact Or.inl (h.trans (min_eq_left hab))
        · refine Or.inr ?_
          rw [h.trans (min_eq_right hba)]
          exact List.mem_cons_self b t
      · exact Or.inr (List.mem_cons_of_mem b h)

/-- Claim C4: over a non-empty set of labels that all resolve to positive
periods, with F the finest resolved period, the computed cycle interval is
exactly clamp(F/4, 0.05, 60) = max(0.05, min(60, F/4)) and lies in
[0.05, 60].  Every resolvable period is a multiple of 4 seconds, so the
source's floor division by 4 is exact. -/
theorem claim4_update_interval (tfs : List String) (F : Int)
    (hne : tfs ≠ [])
    (hok : ∀ tf ∈ tfs, get_timeframe_seconds tf = .ok (some (resolveD tf)) ∧ 0 < resolveD tf)
    (hmem : F ∈ tfs.map resolveD)
    (hlb : ∀ v ∈ tfs.map resolveD, F ≤ v) :
    calculate_update_interval tfs = .ok (max (1/20 : ℚ) (min 60 ((F : ℚ) / 4)))
      ∧ (1/20 : ℚ) ≤ max (1/20 : ℚ) (min 60 ((F : ℚ) / 4))
      ∧ max (1/20 : ℚ) (min 60 ((F : ℚ) / 4)) ≤ 60 := by
  cases tfs with
  | nil => exact absurd rfl hne
  | cons x t =>
      have hposx : 0 < resolveD x := (hok x (List.mem_cons_self x t)).2
      have hfold : (x :: t).foldl (fun mm tf => cuiStep mm (resolveD tf)) none
          = some ((t.map resolveD).foldl min (resolveD x)) := by
        simp only [List.foldl_cons]
        have hstep : cuiStep none (resolveD x) = some (resolveD x) := by
          simp only [cuiStep]
          rw [if_pos (by simp [ne_of_gt hposx])]
        rw [hstep]
        exact cuiPureFold_pos t (fun tf h => (hok tf (List.mem_cons_of_mem x h)).2)
          (resolveD x)
      have hmem2 : F ∈ resolveD x :: t.map resolveD := by
        rw [← List.map_cons]
        exact hmem
      have hmin : (t.map resolveD).foldl min (resolveD x) = F := by
        apply le_antisymm
        · rcases List.mem_cons.mp hmem2 with hFx | hFt
          · rw [hFx]
            exact (foldl_min_le (t.map resolveD) (resolveD x)).1
          · exact (foldl_min_le (t.map resolveD) (resolveD x)).2 F hFt
        · rcases foldl_min_mem (t.map resolveD) (resolveD x) with h | h
          · rw [h]
            refine hlb (resolveD x) ?_
            rw [List.map_cons]
            exact List.mem_cons_self _ _
          · refine hlb _ ?_
            rw [List.map_cons]
            exact List.mem_cons_of_mem _ h
      have hcui : cuiFold none (x :: t) = .ok (some F) := by
        rw [cuiFold_ok (x :: t) (fun tf h => (hok tf h).1) none, hfold, hmin]
      obtain ⟨k, hk⟩ : (4 : Int) ∣ F := by
        obtain ⟨tf0, htf0, htfF⟩ := List.mem_map.mp hmem
        exact htfF ▸ gts_dvd (hok tf0 htf0).1
      have hfd : Int.fdiv F 4 = k := by
        rw [hk]
        exact Int.mul_fdiv_cancel_left k (by norm_num)
      have hcast : ((Int.fdiv F 4 : Int) : ℚ) = (F : ℚ) / 4 := by
        rw [hfd, hk]
        push_cast
        ring
      refine ⟨?_, le_max_left _ _, max_le (by norm_num) (min_le_left _ _)⟩
      unfold calculate_update_interval
      rw [hcui]
      show Except.ok (max (1/20 : ℚ) (min 60 ((Int.fdiv ((some F).getD 60) 4 : Int) : ℚ))) = _
      rw [show ((some F).getD 60 : Int) = F from rfl, hcast]

theorem claim4_witness :
    calculate_update_interval ["M1", "H1"]
        = .ok (max (1/20 : ℚ) (min 60 (((60 : Int) : ℚ) / 4)))
      ∧ (1/20 : ℚ) ≤ max (1/20 : ℚ) (min 60 (((60 : Int) : ℚ) / 4))
      ∧ max (1/20 : ℚ) (min 60 (((60 : Int) : ℚ) / 4)) ≤ 60 :=
  claim4_update_interval ["M1", "H1"] 60 (by decide) (by decide) (by decide) (by decide)

/-! The /ohlc endpoint (C10). -/

/-- Claim C10: a successful /ohlc response has a non-empty time array, six
arrays of equal length, strictly ascending t (the SQL query fetched the
rows in descending time order and each array was reversed), and every t
entry is a stored row's integer time multiplied by 1000. -/
theorem claim10_ohlc_chronological (table : List CandleRow) (sym tfl : String)
    (startT endT : Option Int) (limit : Nat) (co : Bool) (resp : OhlcResponse)
    (hU : (table.map (fun r => r.time)).Nodup)
    (hres : get_ohlc_data table sym tfl startT endT limit co = .ok resp) :
    resp.t ≠ []
      ∧ resp.o.length = resp.t.length
      ∧ resp.h.length = resp.t.length
      ∧ resp.l.length = resp.t.length
      ∧ resp.c.length = resp.t.length
      ∧ resp.v.length = resp.t.length
      ∧ resp.t.Pairwise (fun a b => a < b)
      ∧ ∀ x ∈ resp.t, ∃ r, r ∈ table ∧ x = r.time * 1000 := by
  unfold get_ohlc_data at hres
  by_cases hemp : (ohlcQueryRows table startT endT limit co).isEmpty
  · rw [if_pos hemp] at hres
    exact absurd hres (by simp)
  · rw [if_neg hemp] at hres
    have hrW := Except.ok.inj hres
    subst hrW
    have hrows_ne : ohlcQueryRows table startT endT limit co ≠ [] := by
      intro hh
      rw [hh] at hemp
      exact hemp rfl
    have hsorted : (ohlcQueryRows table startT endT limit co).Pairwise timeGE := by
      unfold ohlcQueryRows
      exact List.Pairwise.sublist (List.take_sublist _ _)
        (List.sorted_insertionSort timeGE (table.filter (ohlcCond startT endT co)))
    have hnodup : ((ohlcQueryRows table startT endT limit co).map (fun r => r.time)).Nodup := by
      have h1 : ((table.filter (ohlcCond startT endT co)).map (fun r => r.time)).Nodup :=
        List.Nodup.sublist (List.Sublist.map _ (List.filter_sublist table)) hU
      have h2 : (((table.filter (ohlcCond startT endT co)).insertionSort timeGE).map
          (fun r => r.time)).Nodup :=
        (List.Perm.nodup_iff
          (List.Perm.map _ (List.perm_insertionSort timeGE _))).mpr h1
      unfold ohlcQueryRows
      rw [List.map_take]
      exact List.Nodup.sublist (List.take_sublist _ _) h2
    have hlt : (ohlcQueryRows table startT endT limit co).Pairwise
        (fun a b => b.time < a.time) := by
      have hne2 : (ohlcQueryRows table startT endT limit co).Pairwise
          (fun a b => a.time ≠ b.time) := List.pairwise_map.mp hnodup
      exact (hsorted.and hne2).imp
        (fun hab => lt_of_le_of_ne hab.1 (fun hh => hab.2 hh.symm))
    have hmemrows : ∀ r ∈ ohlcQueryRows table startT endT limit co, r ∈ table := by
      intro r hr
      unfold ohlcQueryRows at hr
      have hr2 := List.take_subset _ _ hr
      rw [List.mem_insertionSort] at hr2
      exact List.mem_of_mem_filter hr2
    refine ⟨?_, by simp, by simp, by simp, by simp, by simp, ?_, ?_⟩
    · show ((ohlcQueryRows table startT endT limit co).map (fun r => r.time * 1000)).reverse ≠ []
      simp only [ne_eq, List.reverse_eq_nil_iff, List.map_eq_nil_iff]
      exact hrows_ne
    · show (((ohlcQueryRows table startT endT limit co).map
          (fun r => r.time * 1000)).reverse).Pairwise (fun a b => a < b)
      rw [List.pairwise_reverse, List.pairwise_map]
      exact hlt.imp (fun hab => by
        have h1000 : (0 : Int) < 1000 := by norm_num
        exact (mul_lt_mul_right h1000).mpr hab)
    · intro x hx
      show ∃ r, r ∈ table ∧ x = r.time * 1000
      have hx2 : x ∈ (ohlcQueryRows table startT endT limit co).map
          (fun r => r.time * 1000) := by
        rw [← List.mem_reverse]
        exact hx
      obtain ⟨r, hr, hrx⟩ := List.mem_map.mp hx2
      exact ⟨r, hmemrows r hr, hrx.symm⟩

/-- Two stored rows, inserted newest-first, for the /ohlc witness. -/
def w10table : List CandleRow :=
  [rowOfRate (mkRate 100 1) 1, rowOfRate (mkRate 40 1) 1]

/-- The response /ohlc returns for w10table with no filters. -/
def w10resp : OhlcResponse :=
  { symbol := "EURUSD", timeframe := "M1", t := [40000, 100000],
    o := [1, 1], h := [1, 1], l := [1, 1], c := [1, 1], v := [1, 1] }

theorem claim10_witness :
    w10resp.t ≠ []
      ∧ w10resp.o.length = w10resp.t.length
      ∧ w10resp.h.length = w10resp.t.length
      ∧ w10resp.l.length = w10resp.t.length
      ∧ w10resp.c.length = w10resp.t.length
      ∧ w10resp.v.length = w10resp.t.length
      ∧ w10resp.t.Pairwise (fun a b => a < b)
      ∧ ∀ x ∈ w10resp.t, ∃ r, r ∈ w10table ∧ x = r.time * 1000 :=
  claim10_ohlc_chronological w10table "EURUSD" "M1" none none 100 false w10resp
    (by decide) rfl
